import Mathlib

/-!
Verification of the gerrit-review-parser pipeline.

The Python sources under `src/gerrit/src/gerrit_review_parser/` are shallowly
embedded below: pure functions become Lean functions over `List Char` /
structured records, fallible code returns `Except`/`Option`, and the file
system is passed explicitly.  `json.loads` (Python standard library) is
modelled by `json_loads`, a fuel-based recursive-descent JSON parser; JSON
numbers are modelled as integers, which covers every payload the
specification and tests exercise.
-/

namespace GerritReviewParser

/-- A parsed JSON value (the result of Python `json.loads`).  Objects keep
their key/value pairs in source order. -/
inductive JsonVal where
  | null : JsonVal
  | bool (b : Bool) : JsonVal
  | num (n : Int) : JsonVal
  | str (s : String) : JsonVal
  | arr (xs : List JsonVal) : JsonVal
  | obj (kvs : List (String × JsonVal)) : JsonVal

/-- The opening-brace character, written via its code point. -/
def lbrace : Char := Char.ofNat 123

/-- The closing-brace character, written via its code point. -/
def rbrace : Char := Char.ofNat 125

/-! ### The brace-counting scanner of `parse_json_content` (parser.py 26-46) -/

/-- The mutable loop state of the scanner in `parse_json_content`:
`depth`, `in_string`, `escape`. -/
structure ScanState where
  depth : Int
  inString : Bool
  escape : Bool
deriving DecidableEq, Repr

/-- One iteration of the scanner loop body (parser.py 30-45) on one
character.  Returns the updated state together with `true` when the loop
would `return` at this character (depth decremented to zero on a
closing brace outside a string). -/
def scanStep (st : ScanState) (c : Char) : ScanState × Bool :=
  if st.escape then (⟨st.depth, st.inString, false⟩, false)
  else if c = '\\' then (⟨st.depth, st.inString, true⟩, false)
  else
    let inS := if c = '"' then !st.inString else st.inString
    if inS then (⟨st.depth, inS, false⟩, false)
    else if c = lbrace then (⟨st.depth + 1, inS, false⟩, false)
    else if c = rbrace then (⟨st.depth - 1, inS, false⟩, decide (st.depth - 1 = 0))
    else (⟨st.depth, inS, false⟩, false)

/-- Run the scanner loop, returning the index (relative offset `i` added) of
the character at which the loop returns, or `none` when the loop finishes
without triggering. -/
def scanFind : ScanState → List Char → Nat → Option Nat
  | _, [], _ => none
  | st, c :: cs, i =>
    match scanStep st c with
    | (_, true) => some i
    | (st2, false) => scanFind st2 cs (i + 1)

/-- Run the scanner loop over a whole list; `some st` is the final state when
the loop never triggers, `none` means it triggered somewhere inside. -/
def scanRun : ScanState → List Char → Option ScanState
  | st, [] => some st
  | st, c :: cs =>
    match scanStep st c with
    | (_, true) => none
    | (st2, false) => scanRun st2 cs

/-- Characters that the scanner state machine ignores completely: not a
backslash, not a quote, not a brace. -/
def plainChar (c : Char) : Prop :=
  c ≠ '\\' ∧ c ≠ '"' ∧ c ≠ lbrace ∧ c ≠ rbrace

/-! ### A model of Python `json.loads` (fuel-based recursive descent) -/

/-- JSON whitespace, as accepted between tokens by `json.loads`. -/
def isWs (c : Char) : Bool := c = ' ' || c = '\t' || c = '\n' || c = '\r'

/-- Decimal digit test for the number token. -/
def isDigitChar (c : Char) : Bool := '0' ≤ c && c ≤ '9'

/-- Value of one hexadecimal digit (for the `u` string escape). -/
def hexDigitVal (c : Char) : Option Nat :=
  if '0' ≤ c && c ≤ '9' then some (c.toNat - 48)
  else if 'a' ≤ c && c ≤ 'f' then some (c.toNat - 87)
  else if 'A' ≤ c && c ≤ 'F' then some (c.toNat - 55)
  else none

/-- Decoding of a single-character string escape. -/
def escChar (c : Char) : Option Char :=
  if c = '"' then some '"'
  else if c = '\\' then some '\\'
  else if c = '/' then some '/'
  else if c = 'b' then some (Char.ofNat 8)
  else if c = 'f' then some (Char.ofNat 12)
  else if c = 'n' then some '\n'
  else if c = 'r' then some '\r'
  else if c = 't' then some '\t'
  else none

/-- Parse the body of a JSON string literal, after the opening quote, through
the closing quote.  Returns the decoded characters and the rest of the
input. -/
def parseStringBody : Nat → List Char → Option (List Char × List Char)
  | 0, _ => none
  | _ + 1, [] => none
  | fuel + 1, c :: cs =>
    if c = '"' then some ([], cs)
    else if c = '\\' then
      match cs with
      | [] => none
      | e :: cs2 =>
        if e = 'u' then
          match cs2 with
          | a :: b :: c2 :: d2 :: cs3 =>
            match hexDigitVal a, hexDigitVal b, hexDigitVal c2, hexDigitVal d2 with
            | some ha, some hb, some hc, some hd =>
              match parseStringBody fuel cs3 with
              | some (content, rest) =>
                some (Char.ofNat (((ha * 16 + hb) * 16 + hc) * 16 + hd) :: content, rest)
              | none => none
            | _, _, _, _ => none
          | _ => none
        else
          match escChar e with
          | none => none
          | some ch =>
            match parseStringBody fuel cs2 with
            | some (content, rest) => some (ch :: content, rest)
            | none => none
    else
      match parseStringBody fuel cs with
      | some (content, rest) => some (c :: content, rest)
      | none => none

/-- Parse an integer JSON number token (optional minus sign, then digits). -/
def parseIntTok (cs : List Char) : Option (Int × List Char) :=
  match cs with
  | [] => none
  | c :: cs1 =>
    if c = '-' then
      let ds := cs1.takeWhile isDigitChar
      if ds.isEmpty then none
      else some (-(Int.ofNat (ds.foldl (fun n d => n * 10 + (d.toNat - 48)) 0)),
                 cs1.dropWhile isDigitChar)
    else
      let ds := cs.takeWhile isDigitChar
      if ds.isEmpty then none
      else some (Int.ofNat (ds.foldl (fun n d => n * 10 + (d.toNat - 48)) 0),
                 cs.dropWhile isDigitChar)

/-- Parse the members of a JSON object after the opening brace, through the
closing brace, given a parser `pv` for the member values.  The returned rest
is the input after the closing brace. -/
def parseMembersG (pv : List Char → Option (JsonVal × List Char)) :
    Nat → Bool → List Char → Option (List (String × JsonVal) × List Char)
  | 0, _, _ => none
  | fuel + 1, first, cs =>
    let cs1 := cs.dropWhile isWs
    match cs1 with
    | [] => none
    | c :: cs2 =>
      if first ∧ c = rbrace then some ([], cs2)
      else if c = '"' then
        match parseStringBody (cs2.length + 1) cs2 with
        | none => none
        | some (key, cs3) =>
          let cs4 := cs3.dropWhile isWs
          match cs4 with
          | [] => none
          | c5 :: cs5 =>
            if c5 = ':' then
              match pv cs5 with
              | none => none
              | some (v, cs6) =>
                let cs7 := cs6.dropWhile isWs
                match cs7 with
                | [] => none
                | c9 :: cs9 =>
                  if c9 = ',' then
                    match parseMembersG pv fuel false cs9 with
                    | none => none
                    | some (kvs, rest) => some ((String.mk key, v) :: kvs, rest)
                  else if c9 = rbrace then some ([(String.mk key, v)], cs9)
                  else none
            else none
      else none

/-- Parse the elements of a JSON array after the opening bracket, through the
closing bracket, given a parser `pv` for the element values. -/
def parseElementsG (pv : List Char → Option (JsonVal × List Char)) :
    Nat → Bool → List Char → Option (List JsonVal × List Char)
  | 0, _, _ => none
  | fuel + 1, first, cs =>
    let cs1 := cs.dropWhile isWs
    match cs1 with
    | [] => none
    | c :: cs2 =>
      if first ∧ c = ']' then some ([], cs2)
      else
        match pv (c :: cs2) with
        | none => none
        | some (v, cs3) =>
          let cs4 := cs3.dropWhile isWs
          match cs4 with
          | [] => none
          | c6 :: cs6 =>
            if c6 = ',' then
              match parseElementsG pv fuel false cs6 with
              | none => none
              | some (vs, rest) => some (v :: vs, rest)
            else if c6 = ']' then some ([v], cs6)
            else none

/-- Parse one JSON value (the core of the `json.loads` model).  Skips leading
whitespace and dispatches on the first character. -/
def parseValue : Nat → List Char → Option (JsonVal × List Char)
  | 0, _ => none
  | fuel + 1, cs =>
    let cs1 := cs.dropWhile isWs
    match cs1 with
    | [] => none
    | c :: cs2 =>
      if c = lbrace then
        match parseMembersG (parseValue fuel) fuel true cs2 with
        | none => none
        | some (kvs, rest) => some (JsonVal.obj kvs, rest)
      else if c = '[' then
        match parseElementsG (parseValue fuel) fuel true cs2 with
        | none => none
        | some (vs, rest) => some (JsonVal.arr vs, rest)
      else if c = '"' then
        match parseStringBody (cs2.length + 1) cs2 with
        | none => none
        | some (content, rest) => some (JsonVal.str (String.mk content), rest)
      else if c = 't' then
        match cs2 with
        | c1 :: c2 :: c3 :: rest =>
          if c1 = 'r' ∧ c2 = 'u' ∧ c3 = 'e' then some (JsonVal.bool true, rest) else none
        | _ => none
      else if c = 'f' then
        match cs2 with
        | c1 :: c2 :: c3 :: c4 :: rest =>
          if c1 = 'a' ∧ c2 = 'l' ∧ c3 = 's' ∧ c4 = 'e' then some (JsonVal.bool false, rest)
          else none
        | _ => none
      else if c = 'n' then
        match cs2 with
        | c1 :: c2 :: c3 :: rest =>
          if c1 = 'u' ∧ c2 = 'l' ∧ c3 = 'l' then some (JsonVal.null, rest) else none
        | _ => none
      else
        match parseIntTok (c :: cs2) with
        | none => none
        | some (n, rest) => some (JsonVal.num n, rest)

/-- Fuel that is always sufficient for `parseValue` on the given input. -/
def fuelFor (cs : List Char) : Nat := 3 * cs.length + 3

/-- Model of Python `json.loads`: parse one value, allow trailing whitespace,
reject any other trailing bytes; `none` models a raised
`json.JSONDecodeError`. -/
def json_loads (cs : List Char) : Option JsonVal :=
  match parseValue (fuelFor cs) cs with
  | none => none
  | some (v, rest) => if (rest.dropWhile isWs).isEmpty then some v else none

/-- `parse_json_content` (parser.py 14-49): scan for the end of the first
top-level JSON object with the string-aware brace counter; if found, parse
only that prefix, otherwise parse the whole input.  `none` models the fatal
`sys.exit(1)` on a JSON decode error. -/
def parse_json_content (cs : List Char) : Option JsonVal :=
  match scanFind ⟨0, false, false⟩ cs 0 with
  | some i => json_loads (cs.take (i + 1))
  | none => json_loads cs

/-! ### Data model (models.py) and the comment-extraction pipeline (parser.py)

`extract_comments` and its helpers consume the parsed dictionary through a
fixed schema (`data.get("patchSets", [])`, `patch_set.get("comments", [])`,
and the per-comment keys).  That schema is embedded as records whose fields
are `Option`-valued exactly where the Python code treats the key as
optional; a missing key is `none`. -/

/-- A single review comment (models.py `Comment`, immutable dataclass). -/
structure Comment where
  file : String
  line : Int
  reviewer : String
  message : String
  unresolved : Bool
deriving DecidableEq, Repr

/-- The `reviewer` sub-record of a raw comment dict: the code reads only
`reviewer["name"]`, which may be absent. -/
structure RawReviewer where
  name : Option String
deriving DecidableEq, Repr

/-- A raw comment record from the parsed Gerrit JSON, with every key the
code touches, each possibly absent. -/
structure RawComment where
  file : Option String
  line : Option Int
  reviewer : Option RawReviewer
  message : Option String
  unresolved : Option Bool
deriving DecidableEq, Repr

/-- A patch-set record: `number` and the `comments` collection may be
absent. -/
structure PatchSet where
  number : Option Int
  comments : Option (List RawComment)
deriving DecidableEq, Repr

/-- The parsed review dict as read by `extract_comments`, `output_as_dict`
and `display_review`: every key access in those functions is a `.get` with a
default, so each field is optional. -/
structure GerritData where
  project : Option String
  number : Option Int
  subject : Option String
  patchSets : Option (List PatchSet)
deriving DecidableEq, Repr

/-- `_extract_comment` (parser.py 168-185).  Returns `Except.ok none` for
the `return None` path (record missing `file` or `line`), `Except.ok (some c)`
for a materialized comment, and `Except.error` for the `KeyError` that the
dictionary subscripts `comment_data["reviewer"]["name"]` /
`comment_data["message"]` raise when those keys are absent; `unresolved`
defaults to `true` via `.get("unresolved", True)`. -/
def extract_comment (r : RawComment) : Except String (Option Comment) :=
  match r.file, r.line with
  | some f, some ln =>
    match r.reviewer with
    | none => Except.error "KeyError: reviewer"
    | some rev =>
      match rev.name with
      | none => Except.error "KeyError: name"
      | some nm =>
        match r.message with
        | none => Except.error "KeyError: message"
        | some msg =>
          Except.ok (some ⟨f, ln, nm, msg, r.unresolved.getD true⟩)
  | _, _ => Except.ok none

/-- The flattened raw-comment list (parser.py 71-75): all comments of all
patch sets, in patch-set order then within-patch-set order, with a missing
`patchSets` or `comments` collection read as `[]`. -/
def rawCommentsOf (data : GerritData) : List RawComment :=
  (data.patchSets.getD []).flatMap fun ps => ps.comments.getD []

/-- Lexicographic strict comparison of character lists by code point, the
order Python uses to compare `str` values. -/
def charListLt : List Char → List Char → Bool
  | [], [] => false
  | [], _ :: _ => true
  | _ :: _, [] => false
  | a :: as, b :: bs =>
    if a.toNat < b.toNat then true
    else if b.toNat < a.toNat then false
    else charListLt as bs

/-- Python string `<`, by code points.  (Shown below to agree with the
`<` of `String`.) -/
def strLt (a b : String) : Bool := charListLt a.data b.data

/-- The sort key comparison used by `sorted(comments, key=lambda x:
(x.file, x.line))`: lexicographic on the `(file, line)` pair (strings
compared code-point-wise, as in Python). -/
def keyLE (a b : Comment) : Prop :=
  strLt a.file b.file = true ∨ (a.file = b.file ∧ a.line ≤ b.line)

instance : DecidableRel keyLE := fun a b => by
  unfold keyLE; infer_instance

/-- The comment list of `extract_comments` just before the final `sorted`
call (parser.py 77-80): per-record conversion (propagating a raised
`KeyError`), dropping of `None` results, then the optional unresolved-only
filter. -/
def encountered (data : GerritData) (unresolved_only : Bool) :
    Except String (List Comment) :=
  match (rawCommentsOf data).mapM extract_comment with
  | Except.error e => Except.error e
  | Except.ok opts =>
    let comments := opts.filterMap id
    Except.ok (if unresolved_only then comments.filter (fun c => c.unresolved) else comments)

/-- `extract_comments` (parser.py 52-84): flatten, convert, filter, then
stable-sort by `(file, line)`.  Python's `sorted` is a stable sort; it is
modelled by `List.insertionSort`, which is stable for the same comparison
(any two stable sorts for one total preorder agree on every input). -/
def extract_comments (data : GerritData) (unresolved_only : Bool) :
    Except String (List Comment) :=
  match (rawCommentsOf data).mapM extract_comment with
  | Except.error e => Except.error e
  | Except.ok opts =>
    let comments := opts.filterMap id
    let comments := if unresolved_only then comments.filter (fun c => c.unresolved) else comments
    Except.ok (comments.insertionSort keyLE)

/-! ### Structured output (parser.py `output_as_dict`, models.py `ReviewOutput`) -/

/-- The change number is an `int` when the payload has a `number` key and the
sentinel string otherwise (`data.get("number", "Unknown")`). -/
def changeNumberOf (data : GerritData) : Sum Int String :=
  match data.number with
  | some n => Sum.inl n
  | none => Sum.inr "Unknown"

/-- Output structure for JSON serialization (models.py `ReviewOutput`). -/
structure ReviewOutput where
  project : String
  change_number : Sum Int String
  subject : String
  comments : List Comment
deriving DecidableEq, Repr

/-- `ReviewOutput.from_gerrit_data` (models.py 35-42). -/
def ReviewOutput.from_gerrit_data (data : GerritData) (comments : List Comment) :
    ReviewOutput :=
  ⟨data.project.getD "Unknown", changeNumberOf data, data.subject.getD "No subject", comments⟩

/-- The five-field dict of one comment, as built both by
`output_as_dict` (parser.py 103-112) and by `ReviewOutput.to_dict`. -/
def Comment.toJson (c : Comment) : JsonVal :=
  JsonVal.obj
    [("file", JsonVal.str c.file), ("line", JsonVal.num c.line),
     ("reviewer", JsonVal.str c.reviewer), ("message", JsonVal.str c.message),
     ("unresolved", JsonVal.bool c.unresolved)]

/-- The structured-mode output object with keys `project`, `change_number`,
`subject`, `comments` (models.py `to_dict`, serialized by the CLI). -/
def ReviewOutput.toJson (r : ReviewOutput) : JsonVal :=
  JsonVal.obj
    [("project", JsonVal.str r.project),
     ("change_number", match r.change_number with
       | Sum.inl n => JsonVal.num n
       | Sum.inr s => JsonVal.str s),
     ("subject", JsonVal.str r.subject),
     ("comments", JsonVal.arr (r.comments.map Comment.toJson))]

/-- `output_as_dict` (parser.py 87-113): the same structured object built
directly from the parsed data and the comment list. -/
def output_as_dict (data : GerritData) (comments : List Comment) : JsonVal :=
  JsonVal.obj
    [("project", JsonVal.str (data.project.getD "Unknown")),
     ("change_number", match data.number with
       | some n => JsonVal.num n
       | none => JsonVal.str "Unknown"),
     ("subject", JsonVal.str (data.subject.getD "No subject")),
     ("comments", JsonVal.arr (comments.map Comment.toJson))]

/-- First value bound to a key of a JSON object, if any. -/
def jsonLookup (kvs : List (String × JsonVal)) (key : String) : Option JsonVal :=
  match kvs with
  | [] => none
  | (k, v) :: rest => if k = key then some v else jsonLookup rest key

/-- Recovery of one comment from its structured five-field object (the
consumer side of the round-trip). -/
def Comment.fromJson : JsonVal → Option Comment
  | JsonVal.obj kvs =>
    match jsonLookup kvs "file", jsonLookup kvs "line", jsonLookup kvs "reviewer",
          jsonLookup kvs "message", jsonLookup kvs "unresolved" with
    | some (JsonVal.str f), some (JsonVal.num ln), some (JsonVal.str rv),
      some (JsonVal.str msg), some (JsonVal.bool u) => some ⟨f, ln, rv, msg, u⟩
    | _, _, _, _, _ => none
  | _ => none

/-- Recovery of a comment list from its element objects (the consumer side
of the round-trip). -/
def commentsFromJson : List JsonVal → Option (List Comment)
  | [] => some []
  | v :: vs =>
    match Comment.fromJson v with
    | none => none
    | some c =>
      match commentsFromJson vs with
      | none => none
      | some cs => some (c :: cs)

/-- Recovery of the whole summary from the structured output object (the
consumer side of the round-trip). -/
def ReviewOutput.fromJson : JsonVal → Option ReviewOutput
  | JsonVal.obj kvs =>
    match jsonLookup kvs "project", jsonLookup kvs "change_number",
          jsonLookup kvs "subject", jsonLookup kvs "comments" with
    | some (JsonVal.str p), some cn, some (JsonVal.str subj), some (JsonVal.arr cs) =>
      match (match cn with
             | JsonVal.num n => some (Sum.inl n)
             | JsonVal.str s => some (Sum.inr s)
             | _ => none) with
      | none => none
      | some cnv =>
        match commentsFromJson cs with
        | none => none
        | some comments => some ⟨p, cnv, subj, comments⟩
    | _, _, _, _ => none
  | _ => none

/-! ### Context rendering (display.py 15-74) -/

/-- Python `str.rstrip()`: remove trailing whitespace characters. -/
def pyRstrip (s : String) : String :=
  String.mk (s.data.reverse.dropWhile Char.isWhitespace).reverse

/-- Python format `f"\x7bn:4d\x7d"`: decimal rendering right-justified with
spaces to 4 characters. -/
def pyRjust4 (n : Nat) : String :=
  let s := toString n
  String.mk (List.replicate (4 - s.length) ' ') ++ s

/-- The local file system as seen by `os.path.exists` and `read_lines`:
`none` means the path does not exist, `some lines` is the file's line list. -/
def FileSystem : Type := String → Option (List String)

/-- `show_code_context` (display.py 55-74), as the list of lines it echoes.
A missing file produces no output and no error; an existing file produces a
blank separator line followed by the clamped context window, each line
prefixed with its 1-based number right-justified to 4 characters and the
`>>>` marker on the commented line. -/
def show_code_context (fs : FileSystem) (filepath : String) (line_num : Int)
    (context : Int) : List String :=
  match fs filepath with
  | none => []
  | some lines =>
    let start : Int := max 0 (line_num - context - 1)
    let stop : Int := min (lines.length : Int) (line_num + context)
    "" :: ((List.range' start.toNat (stop - start).toNat).map fun i =>
      "     " ++ pyRjust4 (i + 1) ++ " " ++
        (if (i : Int) = line_num - 1 then ">>>" else "   ") ++ " " ++
        pyRstrip (lines.getD i ""))

/-- Python `str.startswith`: the candidate's characters are a prefix of the
subject's characters. -/
def pyStartsWith (s p : String) : Bool := p.data.isPrefixOf s.data

/-- The per-comment context emission of `display_review` (display.py 51-52):
context is only attempted for non-absolute paths. -/
def comment_context (fs : FileSystem) (c : Comment) : List String :=
  if pyStartsWith c.file "/" then [] else show_code_context fs c.file c.line 2

/-! ### SSH command construction (commands.py, gerrit.py) -/

/-- Immutable configuration for the Gerrit SSH connection (models.py
`GerritConfig`; gerrit.py declares the identical NamedTuple). -/
structure GerritConfig where
  host : String
  port : String
  user : String
deriving DecidableEq, Repr

/-- `build_ssh_base` (commands.py 6-21). -/
def build_ssh_base (config : GerritConfig) : List String :=
  ["ssh", "-p", config.port, config.user ++ "@" ++ config.host, "gerrit"]

/-- `build_query_command` (commands.py 24-56); the keyword arguments are
passed explicitly, with the CLI's dry-run path using the defaults
`"JSON", true, true, true`. -/
def build_query_command (config : GerritConfig) (query_str : String)
    (output_format : String) (include_patch_sets include_files include_comments : Bool) :
    List String :=
  let cmd := build_ssh_base config ++ ["query", "--format=" ++ output_format]
  let cmd := if include_patch_sets then cmd ++ ["--patch-sets"] else cmd
  let cmd := if include_files then cmd ++ ["--files"] else cmd
  let cmd := if include_comments then cmd ++ ["--comments"] else cmd
  cmd ++ [query_str]

/-- `build_ssh_command` (gerrit.py 82-104), the literal list used by
`fetch_from_gerrit`. -/
def build_ssh_command (config : GerritConfig) (query_str : String) : List String :=
  ["ssh", "-p", config.port, config.user ++ "@" ++ config.host, "gerrit",
   "query", "--format=JSON", "--patch-sets", "--files", "--comments", query_str]

/-! ### Concrete inputs from the specification and the repository's tests -/

/-- First comment of the specification's sample payload. -/
def sampleComment1 : RawComment :=
  ⟨some "src/main.py", some 10, some ⟨some "Reviewer One"⟩, some "Please fix this", some true⟩

/-- Second comment of the specification's sample payload. -/
def sampleComment2 : RawComment :=
  ⟨some "src/main.py", some 20, some ⟨some "Reviewer Two"⟩, some "Looks good", some false⟩

/-- Third comment of the specification's sample payload. -/
def sampleComment3 : RawComment :=
  ⟨some "src/utils.py", some 5, some ⟨some "Reviewer One"⟩, some "Add docstring", some true⟩

/-- The specification's sample payload: project `test-project`, number
`12345`, subject `Test commit subject`, one patch set with three
comments. -/
def samplePayload : GerritData :=
  ⟨some "test-project", some 12345, some "Test commit subject",
   some [⟨some 1, some [sampleComment1, sampleComment2, sampleComment3]⟩]⟩

/-- The record of the repository's own test
`test_comment_missing_reviewer_skipped`: `file`, `line` and `message`
present, `reviewer` absent. -/
def missingReviewerRecord : RawComment :=
  ⟨some "test.py", some 10, none, some "Fix this", none⟩

/-- The payload of `test_comment_missing_reviewer_skipped`: one patch set
whose single comment lacks the `reviewer` key. -/
def missingReviewerPayload : GerritData :=
  ⟨none, none, none, some [⟨none, some [missingReviewerRecord]⟩]⟩

/-- The characters of the minified input `\x7b"a":1\x7d`. -/
def jsonA : List Char := [lbrace, '"', 'a', '"', ':', '1', rbrace]

/-- The characters of the minified trailing object `\x7b"b":2\x7d`. -/
def jsonB : List Char := [lbrace, '"', 'b', '"', ':', '2', rbrace]

/-- A pretty-printed rendering of the first object, with internal
newlines and indentation. -/
def jsonAPretty : List Char :=
  [lbrace, '\n', ' ', ' ', '"', 'a', '"', ':', ' ', '1', '\n', rbrace]

/-- A pretty-printed rendering of the trailing object. -/
def jsonBPretty : List Char :=
  [lbrace, '\n', ' ', ' ', '"', 'b', '"', ':', ' ', '2', '\n', rbrace]

/-- A small concrete file system with one six-line file, for witnesses. -/
def sampleFs : FileSystem := fun p =>
  if p = "src/main.py" then some ["line one", "line two  ", "line three", "line four", "line five", "line six"]
  else none

/-! ## Theorems -/

/-! ### Scanner state lemmas -/

/-- A pending escape consumes the character unchanged. -/
theorem scanStep_escape (d : Int) (b : Bool) (c : Char) :
    scanStep ⟨d, b, true⟩ c = (⟨d, b, false⟩, false) := rfl

/-- A backslash (with no pending escape) sets the escape flag. -/
theorem scanStep_backslash (d : Int) (b : Bool) :
    scanStep ⟨d, b, false⟩ '\\' = (⟨d, b, true⟩, false) := rfl

/-- An unescaped quote toggles the in-string flag and never triggers. -/
theorem scanStep_quote (d : Int) (b : Bool) :
    scanStep ⟨d, b, false⟩ '"' = (⟨d, !b, false⟩, false) := by
  cases b <;> rfl

/-- Inside a string, any character other than backslash and quote is
skipped. -/
theorem scanStep_inString {c : Char} (h1 : c ≠ '\\') (h2 : c ≠ '"') (d : Int) :
    scanStep ⟨d, true, false⟩ c = (⟨d, true, false⟩, false) := by
  simp [scanStep, h1, h2]

/-- An opening brace outside a string increments the depth. -/
theorem scanStep_lbrace (d : Int) :
    scanStep ⟨d, false, false⟩ lbrace = (⟨d + 1, false, false⟩, false) := rfl

/-- A closing brace outside a string decrements the depth and triggers the
early return exactly when the depth reaches zero. -/
theorem scanStep_rbrace (d : Int) :
    scanStep ⟨d, false, false⟩ rbrace = (⟨d - 1, false, false⟩, decide (d - 1 = 0)) := rfl

/-- A plain character leaves any non-escape scanner state unchanged. -/
theorem scanStep_plain {c : Char} (h : plainChar c) (d : Int) (b : Bool) :
    scanStep ⟨d, b, false⟩ c = (⟨d, b, false⟩, false) := by
  cases b
  · simp [scanStep, h.1, h.2.1, h.2.2.1, h.2.2.2]
  · exact scanStep_inString h.1 h.2.1 d

/-- Unfolding `scanRun` over a non-triggering step. -/
theorem scanRun_cons_of_step {st st2 : ScanState} {c : Char}
    (h : scanStep st c = (st2, false)) (cs : List Char) :
    scanRun st (c :: cs) = scanRun st2 cs := by
  simp [scanRun, h]

/-- Unfolding `scanFind` over a non-triggering step. -/
theorem scanFind_cons_of_step {st st2 : ScanState} {c : Char}
    (h : scanStep st c = (st2, false)) (cs : List Char) (i : Nat) :
    scanFind st (c :: cs) i = scanFind st2 cs (i + 1) := by
  simp [scanFind, h]

/-- Unfolding `scanFind` over a triggering step. -/
theorem scanFind_cons_trigger {st st2 : ScanState} {c : Char}
    (h : scanStep st c = (st2, true)) (cs : List Char) (i : Nat) :
    scanFind st (c :: cs) i = some i := by
  simp [scanFind, h]

/-- A non-triggering run over a prefix composes with the rest. -/
theorem scanRun_append {a : List Char} : ∀ {st st2 : ScanState},
    scanRun st a = some st2 → ∀ (b : List Char), scanRun st (a ++ b) = scanRun st2 b := by
  induction a with
  | nil =>
    intro st st2 h b
    cases h
    rfl
  | cons c a ih =>
    intro st st2 h b
    cases hs : scanStep st c with
    | mk st1 tr =>
      cases tr
      · rw [scanRun_cons_of_step hs] at h
        rw [List.cons_append, scanRun_cons_of_step hs]
        exact ih h b
      · rw [scanRun] at h
        rw [hs] at h
        cases h

/-- A non-triggering run over a prefix shifts the index of `scanFind`. -/
theorem scanFind_append {a : List Char} : ∀ {st st2 : ScanState},
    scanRun st a = some st2 → ∀ (b : List Char) (i : Nat),
      scanFind st (a ++ b) i = scanFind st2 b (i + a.length) := by
  induction a with
  | nil =>
    intro st st2 h b i
    cases h
    rfl
  | cons c a ih =>
    intro st st2 h b i
    cases hs : scanStep st c with
    | mk st1 tr =>
      cases tr
      · rw [scanRun_cons_of_step hs] at h
        rw [List.cons_append, scanFind_cons_of_step hs]
        rw [ih h b (i + 1)]
        congr 1
        simp [List.length_cons]
        omega
      · rw [scanRun] at h
        rw [hs] at h
        cases h

/-- A run over plain characters leaves the state unchanged. -/
theorem scanRun_plain_list : ∀ (cs : List Char), (∀ c ∈ cs, plainChar c) →
    ∀ (d : Int) (b : Bool), scanRun ⟨d, b, false⟩ cs = some ⟨d, b, false⟩ := by
  intro cs
  induction cs with
  | nil => intro _ d b; rfl
  | cons c cs ih =>
    intro h d b
    rw [scanRun_cons_of_step (scanStep_plain (h c (List.mem_cons_self c cs)) d b)]
    exact ih (fun x hx => h x (List.mem_cons_of_mem c hx)) d b

/-- Whitespace characters are plain. -/
theorem isWs_plain (c : Char) (h : isWs c = true) : plainChar c := by
  have : c = ' ' ∨ c = '\t' ∨ c = '\n' ∨ c = '\r' := by
    simpa [isWs, or_assoc] using h
  rcases this with rfl | rfl | rfl | rfl <;>
    exact ⟨by decide, by decide, by decide, by decide⟩

/-- Digit characters are plain. -/
theorem isDigitChar_plain (c : Char) (h : isDigitChar c = true) : plainChar c := by
  refine ⟨?_, ?_, ?_, ?_⟩ <;> rintro rfl <;> exact absurd h (by decide)

/-- Hexadecimal digits are neither backslash nor quote. -/
theorem hexDigitVal_ne (c : Char) (n : Nat) (h : hexDigitVal c = some n) :
    c ≠ '\\' ∧ c ≠ '"' := by
  constructor
  · rintro rfl
    rw [show hexDigitVal '\\' = none from by decide] at h
    exact Option.noConfusion h
  · rintro rfl
    rw [show hexDigitVal '"' = none from by decide] at h
    exact Option.noConfusion h

/-- The whitespace prefix of any list is plain. -/
theorem takeWhile_isWs_plain (cs : List Char) :
    ∀ c ∈ cs.takeWhile isWs, plainChar c :=
  fun c hc => isWs_plain c (List.mem_takeWhile_imp hc)

/-- The colon separator is plain. -/
theorem colon_plain : plainChar ':' := ⟨by decide, by decide, by decide, by decide⟩

/-- The comma separator is plain. -/
theorem comma_plain : plainChar ',' := ⟨by decide, by decide, by decide, by decide⟩

/-- The opening bracket is plain (the scanner only tracks braces). -/
theorem lbracket_plain : plainChar '[' := ⟨by decide, by decide, by decide, by decide⟩

/-- The closing bracket is plain (the scanner only tracks braces). -/
theorem rbracket_plain : plainChar ']' := ⟨by decide, by decide, by decide, by decide⟩

/-- The characters of the literal `true` are plain. -/
theorem true_span_plain : ∀ c ∈ ['t', 'r', 'u', 'e'], plainChar c := by
  intro x hx
  simp at hx
  rcases hx with rfl | rfl | rfl | rfl <;> exact ⟨by decide, by decide, by decide, by decide⟩

/-- The characters of the literal `false` are plain. -/
theorem false_span_plain : ∀ c ∈ ['f', 'a', 'l', 's', 'e'], plainChar c := by
  intro x hx
  simp at hx
  rcases hx with rfl | rfl | rfl | rfl | rfl <;>
    exact ⟨by decide, by decide, by decide, by decide⟩

/-- The characters of the literal `null` are plain. -/
theorem null_span_plain : ∀ c ∈ ['n', 'u', 'l', 'l'], plainChar c := by
  intro x hx
  simp at hx
  rcases hx with rfl | rfl | rfl <;> exact ⟨by decide, by decide, by decide, by decide⟩

/-- An opening quote from outside a string enters string mode. -/
theorem scanStep_quote_open (d : Int) :
    scanStep ⟨d, false, false⟩ '"' = (⟨d, true, false⟩, false) := rfl

/-- A closing brace that does not reach depth zero does not trigger. -/
theorem scanStep_rbrace_no_trigger {d : Int} (h : d - 1 ≠ 0) :
    scanStep ⟨d, false, false⟩ rbrace = (⟨d - 1, false, false⟩, false) := by
  rw [scanStep_rbrace]
  rw [decide_eq_false h]

/-- A closing brace at depth one triggers the early return. -/
theorem scanStep_rbrace_trigger :
    scanStep ⟨1, false, false⟩ rbrace = (⟨0, false, false⟩, true) := rfl

/-- The span consumed by `parseIntTok` consists of plain characters. -/
theorem parseIntTok_scan (cs : List Char) (n : Int) (rest : List Char)
    (h : parseIntTok cs = some (n, rest)) :
    ∃ sp, cs = sp ++ rest ∧ ∀ c ∈ sp, plainChar c := by
  match cs with
  | [] => exact Option.noConfusion h
  | c :: cs1 =>
    rw [parseIntTok] at h
    by_cases hm : c = '-'
    · rw [if_pos hm] at h
      by_cases he : (cs1.takeWhile isDigitChar).isEmpty
      · rw [if_pos he] at h
        exact Option.noConfusion h
      · rw [if_neg he] at h
        have hrest : rest = cs1.dropWhile isDigitChar :=
          (congrArg Prod.snd (Option.some.inj h)).symm
        refine ⟨c :: cs1.takeWhile isDigitChar, ?_, ?_⟩
        · rw [hrest, List.cons_append, List.takeWhile_append_dropWhile]
        · intro x hx
          rcases List.mem_cons.mp hx with rfl | hx
          · rw [hm]; exact ⟨by decide, by decide, by decide, by decide⟩
          · exact isDigitChar_plain x (List.mem_takeWhile_imp hx)
    · rw [if_neg hm] at h
      by_cases he : ((c :: cs1).takeWhile isDigitChar).isEmpty
      · rw [if_pos he] at h
        exact Option.noConfusion h
      · rw [if_neg he] at h
        have hrest : rest = (c :: cs1).dropWhile isDigitChar :=
          (congrArg Prod.snd (Option.some.inj h)).symm
        refine ⟨(c :: cs1).takeWhile isDigitChar, ?_, ?_⟩
        · rw [hrest, List.takeWhile_append_dropWhile]
        · intro x hx
          exact isDigitChar_plain x (List.mem_takeWhile_imp hx)

/-- Scanning the span consumed by `parseStringBody` from an in-string state
returns to the matching out-of-string state, with no early return. -/
theorem parseStringBody_scan : ∀ (fuel : Nat) (cs content rest : List Char),
    parseStringBody fuel cs = some (content, rest) →
    ∃ sp, cs = sp ++ rest ∧
      ∀ (d : Int), scanRun ⟨d, true, false⟩ sp = some ⟨d, false, false⟩ := by
  intro fuel
  induction fuel with
  | zero => intro cs content rest h; exact Option.noConfusion h
  | succ fuel ih =>
    intro cs content rest h
    rcases cs with _ | ⟨c, cs'⟩
    · exact Option.noConfusion h
    rw [show parseStringBody (fuel + 1) (c :: cs') =
        (if c = '"' then some ([], cs')
         else if c = '\\' then
          match cs' with
          | [] => none
          | e :: cs2 =>
            if e = 'u' then
              match cs2 with
              | a :: b :: c2 :: d2 :: cs3 =>
                match hexDigitVal a, hexDigitVal b, hexDigitVal c2, hexDigitVal d2 with
                | some ha, some hb, some hc, some hd =>
                  match parseStringBody fuel cs3 with
                  | some (content, rest) =>
                    some (Char.ofNat (((ha * 16 + hb) * 16 + hc) * 16 + hd) :: content, rest)
                  | none => none
                | _, _, _, _ => none
              | _ => none
            else
              match escChar e with
              | none => none
              | some ch =>
                match parseStringBody fuel cs2 with
                | some (content, rest) => some (ch :: content, rest)
                | none => none
         else
          match parseStringBody fuel cs' with
          | some (content, rest) => some (c :: content, rest)
          | none => none) from rfl] at h
    by_cases hq : c = '"'
    · rw [if_pos hq] at h
      have hrest : rest = cs' := (congrArg Prod.snd (Option.some.inj h)).symm
      refine ⟨['"'], ?_, ?_⟩
      · rw [hq, hrest]; rfl
      · intro d
        rw [scanRun_cons_of_step (scanStep_quote d true)]
        rfl
    · rw [if_neg hq] at h
      by_cases hb : c = '\\'
      · rw [if_pos hb] at h
        rcases cs' with _ | ⟨e, cs2⟩
        · exact Option.noConfusion h
        dsimp only at h
        by_cases hu : e = 'u'
        · rw [if_pos hu] at h
          rcases cs2 with _ | ⟨a, _ | ⟨b2, _ | ⟨c2, _ | ⟨d2, cs3⟩⟩⟩⟩
          · exact Option.noConfusion h
          · exact Option.noConfusion h
          · exact Option.noConfusion h
          · exact Option.noConfusion h
          dsimp only at h
          cases hha : hexDigitVal a with
          | none => rw [hha] at h; exact Option.noConfusion h
          | some ha =>
          cases hhb : hexDigitVal b2 with
          | none => rw [hha, hhb] at h; exact Option.noConfusion h
          | some hb2 =>
          cases hhc : hexDigitVal c2 with
          | none => rw [hha, hhb, hhc] at h; exact Option.noConfusion h
          | some hc2 =>
          cases hhd : hexDigitVal d2 with
          | none => rw [hha, hhb, hhc, hhd] at h; exact Option.noConfusion h
          | some hd2 =>
          cases hps : parseStringBody fuel cs3 with
          | none => rw [hha, hhb, hhc, hhd, hps] at h; exact Option.noConfusion h
          | some pr =>
            obtain ⟨content', rest'⟩ := pr
            rw [hha, hhb, hhc, hhd, hps] at h
            have hrest : rest = rest' := (congrArg Prod.snd (Option.some.inj h)).symm
            obtain ⟨sp', hsp', hscan'⟩ := ih cs3 content' rest' hps
            obtain ⟨ha1, ha2⟩ := hexDigitVal_ne a ha hha
            obtain ⟨hb1, hb2'⟩ := hexDigitVal_ne b2 hb2 hhb
            obtain ⟨hc1, hc2'⟩ := hexDigitVal_ne c2 hc2 hhc
            obtain ⟨hd1, hd2'⟩ := hexDigitVal_ne d2 hd2 hhd
            refine ⟨'\\' :: 'u' :: a :: b2 :: c2 :: d2 :: sp', ?_, ?_⟩
            · rw [hb, hu, hrest, hsp']
              rfl
            · intro d
              rw [scanRun_cons_of_step (scanStep_backslash d true)]
              rw [scanRun_cons_of_step (scanStep_escape d true 'u')]
              rw [scanRun_cons_of_step (scanStep_inString ha1 ha2 d)]
              rw [scanRun_cons_of_step (scanStep_inString hb1 hb2' d)]
              rw [scanRun_cons_of_step (scanStep_inString hc1 hc2' d)]
              rw [scanRun_cons_of_step (scanStep_inString hd1 hd2' d)]
              exact hscan' d
        · rw [if_neg hu] at h
          cases hec : escChar e with
          | none => rw [hec] at h; exact Option.noConfusion h
          | some ch =>
            rw [hec] at h
            cases hps : parseStringBody fuel cs2 with
            | none => rw [hps] at h; exact Option.noConfusion h
            | some pr =>
              obtain ⟨content', rest'⟩ := pr
              rw [hps] at h
              have hrest : rest = rest' := (congrArg Prod.snd (Option.some.inj h)).symm
              obtain ⟨sp', hsp', hscan'⟩ := ih cs2 content' rest' hps
              refine ⟨'\\' :: e :: sp', ?_, ?_⟩
              · rw [hb, hrest, hsp']
                rfl
              · intro d
                rw [scanRun_cons_of_step (scanStep_backslash d true)]
                rw [scanRun_cons_of_step (scanStep_escape d true e)]
                exact hscan' d
      · rw [if_neg hb] at h
        cases hps : parseStringBody fuel cs' with
        | none => rw [hps] at h; exact Option.noConfusion h
        | some pr =>
          obtain ⟨content', rest'⟩ := pr
          rw [hps] at h
          have hrest : rest = rest' := (congrArg Prod.snd (Option.some.inj h)).symm
          obtain ⟨sp', hsp', hscan'⟩ := ih cs' content' rest' hps
          refine ⟨c :: sp', ?_, ?_⟩
          · rw [hrest, hsp']
            rfl
          · intro d
            rw [scanRun_cons_of_step (scanStep_inString hb hq d)]
            exact hscan' d

/-- Scanning the span consumed by `parseMembersG` (which ends at the
object's closing brace) keeps any positive depth, with no early return
before the closing brace. -/
theorem parseMembersG_scan (pv : List Char → Option (JsonVal × List Char))
    (hpv : ∀ (cs : List Char) (v : JsonVal) (rest : List Char), pv cs = some (v, rest) →
      ∃ sp, cs = sp ++ rest ∧
        ∀ (d : Int), 1 ≤ d → scanRun ⟨d, false, false⟩ sp = some ⟨d, false, false⟩) :
    ∀ (fuel : Nat) (first : Bool) (cs : List Char) (kvs : List (String × JsonVal))
      (rest : List Char), parseMembersG pv fuel first cs = some (kvs, rest) →
      ∃ sp, cs = sp ++ rbrace :: rest ∧
        ∀ (d : Int), 1 ≤ d → scanRun ⟨d, false, false⟩ sp = some ⟨d, false, false⟩ := by
  intro fuel
  induction fuel with
  | zero => intro first cs kvs rest h; exact Option.noConfusion h
  | succ fuel ih =>
    intro first cs kvs rest h
    rw [parseMembersG.eq_def] at h
    dsimp only at h
    cases hcs1 : cs.dropWhile isWs with
    | nil => rw [hcs1] at h; exact Option.noConfusion h
    | cons c cs2 =>
      rw [hcs1] at h
      dsimp only at h
      have hcs : cs = cs.takeWhile isWs ++ (c :: cs2) := by
        rw [← hcs1, List.takeWhile_append_dropWhile]
      by_cases hfr : (first = true ∧ c = rbrace)
      · rw [if_pos hfr] at h
        have hrest : rest = cs2 := (congrArg Prod.snd (Option.some.inj h)).symm
        refine ⟨cs.takeWhile isWs, ?_, ?_⟩
        · rw [hrest, ← hfr.2]
          exact hcs
        · intro d _
          exact scanRun_plain_list _ (takeWhile_isWs_plain cs) d false
      · rw [if_neg hfr] at h
        by_cases hq : c = '"'
        · rw [if_pos hq] at h
          cases hsb : parseStringBody (cs2.length + 1) cs2 with
          | none => rw [hsb] at h; exact Option.noConfusion h
          | some pr =>
            obtain ⟨key, cs3⟩ := pr
            rw [hsb] at h
            dsimp only at h
            obtain ⟨ksp, hksp, hkscan⟩ := parseStringBody_scan _ cs2 key cs3 hsb
            cases hcs4 : cs3.dropWhile isWs with
            | nil => rw [hcs4] at h; exact Option.noConfusion h
            | cons c5 cs5 =>
              rw [hcs4] at h
              dsimp only at h
              have hcs3 : cs3 = cs3.takeWhile isWs ++ (c5 :: cs5) := by
                rw [← hcs4, List.takeWhile_append_dropWhile]
              by_cases hcolon : c5 = ':'
              · rw [if_pos hcolon] at h
                cases hpv1 : pv cs5 with
                | none => rw [hpv1] at h; exact Option.noConfusion h
                | some pr2 =>
                  obtain ⟨v, cs6⟩ := pr2
                  rw [hpv1] at h
                  dsimp only at h
                  obtain ⟨vsp, hvsp, hvscan⟩ := hpv cs5 v cs6 hpv1
                  cases hcs7 : cs6.dropWhile isWs with
                  | nil => rw [hcs7] at h; exact Option.noConfusion h
                  | cons c9 cs9 =>
                    rw [hcs7] at h
                    dsimp only at h
                    have hcs6 : cs6 = cs6.takeWhile isWs ++ (c9 :: cs9) := by
                      rw [← hcs7, List.takeWhile_append_dropWhile]
                    by_cases hcomma : c9 = ','
                    · rw [if_pos hcomma] at h
                      cases hrec : parseMembersG pv fuel false cs9 with
                      | none => rw [hrec] at h; exact Option.noConfusion h
                      | some pr3 =>
                        obtain ⟨kvs', rest'⟩ := pr3
                        rw [hrec] at h
                        have hrest : rest = rest' :=
                          (congrArg Prod.snd (Option.some.inj h)).symm
                        obtain ⟨sp', hsp', hscan'⟩ := ih false cs9 kvs' rest' hrec
                        refine ⟨cs.takeWhile isWs ++ '"' :: ksp ++ cs3.takeWhile isWs ++
                          ':' :: vsp ++ cs6.takeWhile isWs ++ ',' :: sp', ?_, ?_⟩
                        · rw [hrest, ← hq, ← hcolon, ← hcomma]
                          conv_lhs => rw [hcs, hksp, hcs3, hvsp, hcs6, hsp']
                          simp
                        · intro d hd
                          simp only [List.append_assoc, List.cons_append]
                          rw [scanRun_append (scanRun_plain_list _
                            (takeWhile_isWs_plain cs) d false)]
                          rw [scanRun_cons_of_step (scanStep_quote_open d)]
                          rw [scanRun_append (hkscan d)]
                          rw [scanRun_append (scanRun_plain_list _
                            (takeWhile_isWs_plain cs3) d false)]
                          rw [scanRun_cons_of_step (scanStep_plain colon_plain d false)]
                          rw [scanRun_append (hvscan d hd)]
                          rw [scanRun_append (scanRun_plain_list _
                            (takeWhile_isWs_plain cs6) d false)]
                          rw [scanRun_cons_of_step (scanStep_plain comma_plain d false)]
                          exact hscan' d hd
                    · by_cases hrb : c9 = rbrace
                      · rw [if_neg hcomma, if_pos hrb] at h
                        have hrest : rest = cs9 :=
                          (congrArg Prod.snd (Option.some.inj h)).symm
                        refine ⟨cs.takeWhile isWs ++ '"' :: ksp ++ cs3.takeWhile isWs ++
                          ':' :: vsp ++ cs6.takeWhile isWs, ?_, ?_⟩
                        · rw [hrest, ← hq, ← hcolon, ← hrb]
                          conv_lhs => rw [hcs, hksp, hcs3, hvsp, hcs6]
                          simp
                        · intro d hd
                          simp only [List.append_assoc, List.cons_append]
                          rw [scanRun_append (scanRun_plain_list _
                            (takeWhile_isWs_plain cs) d false)]
                          rw [scanRun_cons_of_step (scanStep_quote_open d)]
                          rw [scanRun_append (hkscan d)]
                          rw [scanRun_append (scanRun_plain_list _
                            (takeWhile_isWs_plain cs3) d false)]
                          rw [scanRun_cons_of_step (scanStep_plain colon_plain d false)]
                          rw [scanRun_append (hvscan d hd)]
                          exact scanRun_plain_list _ (takeWhile_isWs_plain cs6) d false
                      · rw [if_neg hcomma, if_neg hrb] at h
                        exact Option.noConfusion h
              · rw [if_neg hcolon] at h
                exact Option.noConfusion h
        · rw [if_neg hq] at h
          exact Option.noConfusion h

/-- Scanning the span consumed by `parseElementsG` (including the closing
bracket) keeps any positive depth, with no early return. -/
theorem parseElementsG_scan (pv : List Char → Option (JsonVal × List Char))
    (hpv : ∀ (cs : List Char) (v : JsonVal) (rest : List Char), pv cs = some (v, rest) →
      ∃ sp, cs = sp ++ rest ∧
        ∀ (d : Int), 1 ≤ d → scanRun ⟨d, false, false⟩ sp = some ⟨d, false, false⟩) :
    ∀ (fuel : Nat) (first : Bool) (cs : List Char) (vs : List JsonVal)
      (rest : List Char), parseElementsG pv fuel first cs = some (vs, rest) →
      ∃ sp, cs = sp ++ rest ∧
        ∀ (d : Int), 1 ≤ d → scanRun ⟨d, false, false⟩ sp = some ⟨d, false, false⟩ := by
  intro fuel
  induction fuel with
  | zero => intro first cs vs rest h; exact Option.noConfusion h
  | succ fuel ih =>
    intro first cs vs rest h
    rw [parseElementsG.eq_def] at h
    dsimp only at h
    cases hcs1 : cs.dropWhile isWs with
    | nil => rw [hcs1] at h; exact Option.noConfusion h
    | cons c cs2 =>
      rw [hcs1] at h
      dsimp only at h
      have hcs : cs = cs.takeWhile isWs ++ (c :: cs2) := by
        rw [← hcs1, List.takeWhile_append_dropWhile]
      by_cases hfr : (first = true ∧ c = ']')
      · rw [if_pos hfr] at h
        have hrest : rest = cs2 := (congrArg Prod.snd (Option.some.inj h)).symm
        refine ⟨cs.takeWhile isWs ++ [']'], ?_, ?_⟩
        · rw [hrest, ← hfr.2]
          conv_lhs => rw [hcs]
          simp
        · intro d _
          rw [scanRun_append (scanRun_plain_list _ (takeWhile_isWs_plain cs) d false)]
          rw [scanRun_cons_of_step (scanStep_plain rbracket_plain d false)]
          rfl
      · rw [if_neg hfr] at h
        cases hpv1 : pv (c :: cs2) with
        | none => rw [hpv1] at h; exact Option.noConfusion h
        | some pr =>
          obtain ⟨v, cs3⟩ := pr
          rw [hpv1] at h
          dsimp only at h
          obtain ⟨vsp, hvsp, hvscan⟩ := hpv (c :: cs2) v cs3 hpv1
          cases hcs4 : cs3.dropWhile isWs with
          | nil => rw [hcs4] at h; exact Option.noConfusion h
          | cons c6 cs6 =>
            rw [hcs4] at h
            dsimp only at h
            have hcs3 : cs3 = cs3.takeWhile isWs ++ (c6 :: cs6) := by
              rw [← hcs4, List.takeWhile_append_dropWhile]
            by_cases hcomma : c6 = ','
            · rw [if_pos hcomma] at h
              cases hrec : parseElementsG pv fuel false cs6 with
              | none => rw [hrec] at h; exact Option.noConfusion h
              | some pr2 =>
                obtain ⟨vs', rest'⟩ := pr2
                rw [hrec] at h
                have hrest : rest = rest' := (congrArg Prod.snd (Option.some.inj h)).symm
                obtain ⟨sp', hsp', hscan'⟩ := ih false cs6 vs' rest' hrec
                refine ⟨cs.takeWhile isWs ++ vsp ++ cs3.takeWhile isWs ++ ',' :: sp', ?_, ?_⟩
                · rw [hrest, ← hcomma]
                  conv_lhs => rw [hcs, hvsp, hcs3, hsp']
                  simp
                · intro d hd
                  simp only [List.append_assoc, List.cons_append]
                  rw [scanRun_append (scanRun_plain_list _ (takeWhile_isWs_plain cs) d false)]
                  rw [scanRun_append (hvscan d hd)]
                  rw [scanRun_append (scanRun_plain_list _ (takeWhile_isWs_plain cs3) d false)]
                  rw [scanRun_cons_of_step (scanStep_plain comma_plain d false)]
                  exact hscan' d hd
            · by_cases hbk : c6 = ']'
              · rw [if_neg hcomma, if_pos hbk] at h
                have hrest : rest = cs6 := (congrArg Prod.snd (Option.some.inj h)).symm
                refine ⟨cs.takeWhile isWs ++ vsp ++ cs3.takeWhile isWs ++ [']'], ?_, ?_⟩
                · rw [hrest, ← hbk]
                  conv_lhs => rw [hcs, hvsp, hcs3]
                  simp
                · intro d hd
                  simp only [List.append_assoc, List.cons_append]
                  rw [scanRun_append (scanRun_plain_list _ (takeWhile_isWs_plain cs) d false)]
                  rw [scanRun_append (hvscan d hd)]
                  rw [scanRun_append (scanRun_plain_list _ (takeWhile_isWs_plain cs3) d false)]
                  rw [scanRun_cons_of_step (scanStep_plain rbracket_plain d false)]
                  rfl
              · rw [if_neg hcomma, if_neg hbk] at h
                exact Option.noConfusion h

/-- Scanning the span consumed by `parseValue` from any positive depth
returns to that depth, with no early return: the string-aware brace counter
never ends a top-level object inside a complete nested value. -/
theorem parseValue_scan : ∀ (fuel : Nat) (cs : List Char) (v : JsonVal) (rest : List Char),
    parseValue fuel cs = some (v, rest) →
    ∃ sp, cs = sp ++ rest ∧
      ∀ (d : Int), 1 ≤ d → scanRun ⟨d, false, false⟩ sp = some ⟨d, false, false⟩ := by
  intro fuel
  induction fuel with
  | zero => intro cs v rest h; exact Option.noConfusion h
  | succ fuel ih =>
    intro cs v rest h
    rw [parseValue.eq_def] at h
    dsimp only at h
    cases hcs1 : cs.dropWhile isWs with
    | nil => rw [hcs1] at h; exact Option.noConfusion h
    | cons c cs2 =>
      rw [hcs1] at h
      dsimp only at h
      have hcs : cs = cs.takeWhile isWs ++ (c :: cs2) := by
        rw [← hcs1, List.takeWhile_append_dropWhile]
      by_cases hlb : c = lbrace
      · rw [if_pos hlb] at h
        cases hm : parseMembersG (parseValue fuel) fuel true cs2 with
        | none => rw [hm] at h; exact Option.noConfusion h
        | some pr =>
          obtain ⟨kvs, rest'⟩ := pr
          rw [hm] at h
          have hrest : rest = rest' := (congrArg Prod.snd (Option.some.inj h)).symm
          obtain ⟨msp, hmsp, hmscan⟩ :=
            parseMembersG_scan (parseValue fuel) ih fuel true cs2 kvs rest' hm
          refine ⟨cs.takeWhile isWs ++ lbrace :: msp ++ [rbrace], ?_, ?_⟩
          · rw [hrest, ← hlb]
            conv_lhs => rw [hcs, hmsp]
            simp
          · intro d hd
            simp only [List.append_assoc, List.cons_append]
            rw [scanRun_append (scanRun_plain_list _ (takeWhile_isWs_plain cs) d false)]
            rw [scanRun_cons_of_step (scanStep_lbrace d)]
            rw [scanRun_append (hmscan (d + 1) (by omega))]
            rw [scanRun_cons_of_step (scanStep_rbrace_no_trigger
              (show d + 1 - 1 ≠ 0 by omega))]
            rw [show d + 1 - 1 = d from by omega]
            rfl
      · rw [if_neg hlb] at h
        by_cases hlk : c = '['
        · rw [if_pos hlk] at h
          cases he : parseElementsG (parseValue fuel) fuel true cs2 with
          | none => rw [he] at h; exact Option.noConfusion h
          | some pr =>
            obtain ⟨vs, rest'⟩ := pr
            rw [he] at h
            have hrest : rest = rest' := (congrArg Prod.snd (Option.some.inj h)).symm
            obtain ⟨esp, hesp, hescan⟩ :=
              parseElementsG_scan (parseValue fuel) ih fuel true cs2 vs rest' he
            refine ⟨cs.takeWhile isWs ++ '[' :: esp, ?_, ?_⟩
            · rw [hrest, ← hlk]
              conv_lhs => rw [hcs, hesp]
              simp
            · intro d hd
              rw [scanRun_append (scanRun_plain_list _ (takeWhile_isWs_plain cs) d false)]
              rw [scanRun_cons_of_step (scanStep_plain lbracket_plain d false)]
              exact hescan d hd
        · rw [if_neg hlk] at h
          by_cases hq : c = '"'
          · rw [if_pos hq] at h
            cases hsb : parseStringBody (cs2.length + 1) cs2 with
            | none => rw [hsb] at h; exact Option.noConfusion h
            | some pr =>
              obtain ⟨content, rest'⟩ := pr
              rw [hsb] at h
              have hrest : rest = rest' := (congrArg Prod.snd (Option.some.inj h)).symm
              obtain ⟨ssp, hssp, hsscan⟩ := parseStringBody_scan _ cs2 content rest' hsb
              refine ⟨cs.takeWhile isWs ++ '"' :: ssp, ?_, ?_⟩
              · rw [hrest, ← hq]
                conv_lhs => rw [hcs, hssp]
                simp
              · intro d hd
                rw [scanRun_append (scanRun_plain_list _ (takeWhile_isWs_plain cs) d false)]
                rw [scanRun_cons_of_step (scanStep_quote_open d)]
                exact hsscan d
          · rw [if_neg hq] at h
            by_cases ht : c = 't'
            · rw [if_pos ht] at h
              rcases cs2 with _ | ⟨c1, _ | ⟨c2, _ | ⟨c3, rest2⟩⟩⟩
              · exact Option.noConfusion h
              · exact Option.noConfusion h
              · exact Option.noConfusion h
              dsimp only at h
              by_cases htr : (c1 = 'r' ∧ c2 = 'u' ∧ c3 = 'e')
              · rw [if_pos htr] at h
                have hrest : rest = rest2 := (congrArg Prod.snd (Option.some.inj h)).symm
                obtain ⟨h1, h2, h3⟩ := htr
                refine ⟨cs.takeWhile isWs ++ ['t', 'r', 'u', 'e'], ?_, ?_⟩
                · rw [hrest]
                  conv_lhs => rw [hcs, ht, h1, h2, h3]
                  simp
                · intro d _
                  rw [scanRun_append (scanRun_plain_list _ (takeWhile_isWs_plain cs) d false)]
                  exact scanRun_plain_list _ true_span_plain d false
              · rw [if_neg htr] at h
                exact Option.noConfusion h
            · rw [if_neg ht] at h
              by_cases hf : c = 'f'
              · rw [if_pos hf] at h
                rcases cs2 with _ | ⟨c1, _ | ⟨c2, _ | ⟨c3, _ | ⟨c4, rest2⟩⟩⟩⟩
                · exact Option.noConfusion h
                · exact Option.noConfusion h
                · exact Option.noConfusion h
                · exact Option.noConfusion h
                dsimp only at h
                by_cases hfa : (c1 = 'a' ∧ c2 = 'l' ∧ c3 = 's' ∧ c4 = 'e')
                · rw [if_pos hfa] at h
                  have hrest : rest = rest2 := (congrArg Prod.snd (Option.some.inj h)).symm
                  obtain ⟨h1, h2, h3, h4⟩ := hfa
                  refine ⟨cs.takeWhile isWs ++ ['f', 'a', 'l', 's', 'e'], ?_, ?_⟩
                  · rw [hrest]
                    conv_lhs => rw [hcs, hf, h1, h2, h3, h4]
                    simp
                  · intro d _
                    rw [scanRun_append (scanRun_plain_list _ (takeWhile_isWs_plain cs) d false)]
                    exact scanRun_plain_list _ false_span_plain d false
                · rw [if_neg hfa] at h
                  exact Option.noConfusion h
              · rw [if_neg hf] at h
                by_cases hn : c = 'n'
                · rw [if_pos hn] at h
                  rcases cs2 with _ | ⟨c1, _ | ⟨c2, _ | ⟨c3, rest2⟩⟩⟩
                  · exact Option.noConfusion h
                  · exact Option.noConfusion h
                  · exact Option.noConfusion h
                  dsimp only at h
                  by_cases hnu : (c1 = 'u' ∧ c2 = 'l' ∧ c3 = 'l')
                  · rw [if_pos hnu] at h
                    have hrest : rest = rest2 := (congrArg Prod.snd (Option.some.inj h)).symm
                    obtain ⟨h1, h2, h3⟩ := hnu
                    refine ⟨cs.takeWhile isWs ++ ['n', 'u', 'l', 'l'], ?_, ?_⟩
                    · rw [hrest]
                      conv_lhs => rw [hcs, hn, h1, h2, h3]
                      simp
                    · intro d _
                      rw [scanRun_append (scanRun_plain_list _
                        (takeWhile_isWs_plain cs) d false)]
                      exact scanRun_plain_list _ null_span_plain d false
                  · rw [if_neg hnu] at h
                    exact Option.noConfusion h
                · rw [if_neg hn] at h
                  cases hit : parseIntTok (c :: cs2) with
                  | none => rw [hit] at h; exact Option.noConfusion h
                  | some pr =>
                    obtain ⟨n, rest'⟩ := pr
                    rw [hit] at h
                    have hrest : rest = rest' := (congrArg Prod.snd (Option.some.inj h)).symm
                    obtain ⟨nsp, hnsp, hplain⟩ := parseIntTok_scan (c :: cs2) n rest' hit
                    refine ⟨cs.takeWhile isWs ++ nsp, ?_, ?_⟩
                    · rw [hrest]
                      conv_lhs => rw [hcs, hnsp]
                      simp
                    · intro d _
                      rw [scanRun_append (scanRun_plain_list _
                        (takeWhile_isWs_plain cs) d false)]
                      exact scanRun_plain_list nsp hplain d false

/-- `charListLt` decides the lexicographic order on character lists (the
order underlying the `<` of `String`). -/
theorem charListLt_iff : ∀ (as bs : List Char), charListLt as bs = true ↔ List.lt as bs
  | [], [] => by
    constructor
    · intro h; simp [charListLt] at h
    · intro h; cases h
  | [], b :: bs => by
    constructor
    · intro _; exact List.lt.nil b bs
    · intro _; rfl
  | a :: as, [] => by
    constructor
    · intro h; simp [charListLt] at h
    · intro h; cases h
  | a :: as, b :: bs => by
    constructor
    · intro h
      by_cases h1 : a.toNat < b.toNat
      · exact List.lt.head _ _ h1
      · by_cases h2 : b.toNat < a.toNat
        · simp only [charListLt] at h
          rw [if_neg h1, if_pos h2] at h
          cases h
        · simp only [charListLt] at h
          rw [if_neg h1, if_neg h2] at h
          exact List.lt.tail (fun hh => h1 hh) (fun hh => h2 hh) ((charListLt_iff as bs).mp h)
    · intro h
      cases h with
      | head _ _ h1 =>
        simp only [charListLt]
        rw [if_pos (show a.toNat < b.toNat from h1)]
      | tail h1 h2 h3 =>
        simp only [charListLt]
        rw [if_neg (show ¬ a.toNat < b.toNat from fun hh => h1 hh),
            if_neg (show ¬ b.toNat < a.toNat from fun hh => h2 hh)]
        exact (charListLt_iff as bs).mpr h3

/-- `strLt` decides the primitive lexicographic order on the underlying
character lists of strings. -/
theorem strLt_iff_data_lt (a b : String) : strLt a b = true ↔ List.lt a.data b.data :=
  charListLt_iff a.data b.data

/-- `charListLt` is transitive. -/
theorem charListLt_trans : ∀ (as bs cs : List Char), charListLt as bs = true →
    charListLt bs cs = true → charListLt as cs = true
  | [], [], _, h1, _ => by simp [charListLt] at h1
  | [], _ :: _, [], _, h2 => by simp [charListLt] at h2
  | [], _ :: _, _ :: _, _, _ => rfl
  | _ :: _, [], _, h1, _ => by simp [charListLt] at h1
  | _ :: _, _ :: _, [], _, h2 => by simp [charListLt] at h2
  | a :: as, b :: bs, c :: cs, h1, h2 => by
    simp only [charListLt] at h1 h2 ⊢
    by_cases hab : a.toNat < b.toNat
    · by_cases hbc : b.toNat < c.toNat
      · rw [if_pos (Nat.lt_trans hab hbc)]
      · by_cases hcb : c.toNat < b.toNat
        · rw [if_neg hbc, if_pos hcb] at h2
          cases h2
        · rw [if_pos (show a.toNat < c.toNat by omega)]
    · by_cases hba : b.toNat < a.toNat
      · rw [if_neg hab, if_pos hba] at h1
        cases h1
      · rw [if_neg hab, if_neg hba] at h1
        by_cases hbc : b.toNat < c.toNat
        · rw [if_pos (show a.toNat < c.toNat by omega)]
        · by_cases hcb : c.toNat < b.toNat
          · rw [if_neg hbc, if_pos hcb] at h2
            cases h2
          · rw [if_neg hbc, if_neg hcb] at h2
            rw [if_neg (show ¬ a.toNat < c.toNat by omega),
                if_neg (show ¬ c.toNat < a.toNat by omega)]
            exact charListLt_trans as bs cs h1 h2

/-- `charListLt` is trichotomous. -/
theorem charListLt_trichotomy : ∀ (as bs : List Char),
    charListLt as bs = true ∨ as = bs ∨ charListLt bs as = true
  | [], [] => Or.inr (Or.inl rfl)
  | [], _ :: _ => Or.inl rfl
  | _ :: _, [] => Or.inr (Or.inr rfl)
  | a :: as, b :: bs => by
    by_cases hab : a.toNat < b.toNat
    · refine Or.inl ?_
      simp only [charListLt]
      rw [if_pos hab]
    · by_cases hba : b.toNat < a.toNat
      · refine Or.inr (Or.inr ?_)
        simp only [charListLt]
        rw [if_pos hba]
      · have hc : a = b := by
          rw [← Char.ofNat_toNat a, ← Char.ofNat_toNat b, show a.toNat = b.toNat by omega]
        rcases charListLt_trichotomy as bs with h | h | h
        · refine Or.inl ?_
          simp only [charListLt]
          rw [if_neg hab, if_neg hba]
          exact h
        · exact Or.inr (Or.inl (by rw [hc, h]))
        · refine Or.inr (Or.inr ?_)
          simp only [charListLt]
          rw [if_neg hba, if_neg hab]
          exact h

/-- `strLt` is transitive. -/
theorem strLt_trans (a b c : String) (h1 : strLt a b = true) (h2 : strLt b c = true) :
    strLt a c = true :=
  charListLt_trans a.data b.data c.data h1 h2

/-- `strLt` is trichotomous. -/
theorem strLt_trichotomy (a b : String) :
    strLt a b = true ∨ a = b ∨ strLt b a = true := by
  rcases charListLt_trichotomy a.data b.data with h | h | h
  · exact Or.inl h
  · exact Or.inr (Or.inl (String.toList_inj.mp h))
  · exact Or.inr (Or.inr h)

/-- The sort key comparison is transitive. -/
theorem keyLE_trans : ∀ (a b c : Comment), keyLE a b → keyLE b c → keyLE a c := by
  intro a b c hab hbc
  rcases hab with h1 | ⟨e1, l1⟩ <;> rcases hbc with h2 | ⟨e2, l2⟩
  · exact Or.inl (strLt_trans _ _ _ h1 h2)
  · exact Or.inl (by rw [← e2]; exact h1)
  · exact Or.inl (by rw [e1]; exact h2)
  · exact Or.inr ⟨e1.trans e2, l1.trans l2⟩

/-- The sort key comparison is total. -/
theorem keyLE_total : ∀ (a b : Comment), keyLE a b ∨ keyLE b a := by
  intro a b
  rcases strLt_trichotomy a.file b.file with h | h | h
  · exact Or.inl (Or.inl h)
  · rcases le_total a.line b.line with hl | hl
    · exact Or.inl (Or.inr ⟨h, hl⟩)
    · exact Or.inr (Or.inr ⟨h.symm, hl⟩)
  · exact Or.inr (Or.inl h)

/-- When `parseValue` returns a top-level object, its consumed span is a
plain whitespace prefix, an opening brace, a depth-preserving members span,
and the closing brace. -/
theorem parseValue_obj_scan : ∀ (fuel : Nat) (cs : List Char)
    (kvs : List (String × JsonVal)) (rest : List Char),
    parseValue fuel cs = some (JsonVal.obj kvs, rest) →
    ∃ ws msp, cs = ws ++ lbrace :: msp ++ rbrace :: rest ∧ (∀ c ∈ ws, plainChar c) ∧
      ∀ (d : Int), 1 ≤ d → scanRun ⟨d, false, false⟩ msp = some ⟨d, false, false⟩ := by
  intro fuel cs kvs rest h
  match fuel with
  | 0 => exact Option.noConfusion h
  | fuel + 1 =>
  rw [parseValue.eq_def] at h
  dsimp only at h
  cases hcs1 : cs.dropWhile isWs with
  | nil => rw [hcs1] at h; exact Option.noConfusion h
  | cons c cs2 =>
    rw [hcs1] at h
    dsimp only at h
    have hcs : cs = cs.takeWhile isWs ++ (c :: cs2) := by
      rw [← hcs1, List.takeWhile_append_dropWhile]
    by_cases hlb : c = lbrace
    · rw [if_pos hlb] at h
      cases hm : parseMembersG (parseValue fuel) fuel true cs2 with
      | none => rw [hm] at h; exact Option.noConfusion h
      | some pr =>
        obtain ⟨kvs', rest'⟩ := pr
        rw [hm] at h
        have h' := Option.some.inj h
        have hr : rest' = rest := congrArg Prod.snd h'
        obtain ⟨msp, hmsp, hmscan⟩ :=
          parseMembersG_scan (parseValue fuel) (parseValue_scan fuel) fuel true cs2 kvs' rest' hm
        refine ⟨cs.takeWhile isWs, msp, ?_, takeWhile_isWs_plain cs, hmscan⟩
        conv_lhs => rw [hcs, hmsp, hr, hlb]
        simp
    · rw [if_neg hlb] at h
      by_cases hlk : c = '['
      · rw [if_pos hlk] at h
        cases he : parseElementsG (parseValue fuel) fuel true cs2 with
        | none => rw [he] at h; exact Option.noConfusion h
        | some pr =>
          obtain ⟨vs, rest'⟩ := pr
          rw [he] at h
          exact JsonVal.noConfusion (congrArg Prod.fst (Option.some.inj h))
      · rw [if_neg hlk] at h
        by_cases hq : c = '"'
        · rw [if_pos hq] at h
          cases hsb : parseStringBody (cs2.length + 1) cs2 with
          | none => rw [hsb] at h; exact Option.noConfusion h
          | some pr =>
            obtain ⟨content, rest'⟩ := pr
            rw [hsb] at h
            exact JsonVal.noConfusion (congrArg Prod.fst (Option.some.inj h))
        · rw [if_neg hq] at h
          by_cases ht : c = 't'
          · rw [if_pos ht] at h
            rcases cs2 with _ | ⟨c1, _ | ⟨c2, _ | ⟨c3, rest2⟩⟩⟩
            · exact Option.noConfusion h
            · exact Option.noConfusion h
            · exact Option.noConfusion h
            dsimp only at h
            by_cases htr : (c1 = 'r' ∧ c2 = 'u' ∧ c3 = 'e')
            · rw [if_pos htr] at h
              exact JsonVal.noConfusion (congrArg Prod.fst (Option.some.inj h))
            · rw [if_neg htr] at h
              exact Option.noConfusion h
          · rw [if_neg ht] at h
            by_cases hf : c = 'f'
            · rw [if_pos hf] at h
              rcases cs2 with _ | ⟨c1, _ | ⟨c2, _ | ⟨c3, _ | ⟨c4, rest2⟩⟩⟩⟩
              · exact Option.noConfusion h
              · exact Option.noConfusion h
              · exact Option.noConfusion h
              · exact Option.noConfusion h
              dsimp only at h
              by_cases hfa : (c1 = 'a' ∧ c2 = 'l' ∧ c3 = 's' ∧ c4 = 'e')
              · rw [if_pos hfa] at h
                exact JsonVal.noConfusion (congrArg Prod.fst (Option.some.inj h))
              · rw [if_neg hfa] at h
                exact Option.noConfusion h
            · rw [if_neg hf] at h
              by_cases hn : c = 'n'
              · rw [if_pos hn] at h
                rcases cs2 with _ | ⟨c1, _ | ⟨c2, _ | ⟨c3, rest2⟩⟩⟩
                · exact Option.noConfusion h
                · exact Option.noConfusion h
                · exact Option.noConfusion h
                dsimp only at h
                by_cases hnu : (c1 = 'u' ∧ c2 = 'l' ∧ c3 = 'l')
                · rw [if_pos hnu] at h
                  exact JsonVal.noConfusion (congrArg Prod.fst (Option.some.inj h))
                · rw [if_neg hnu] at h
                  exact Option.noConfusion h
              · rw [if_neg hn] at h
                cases hit : parseIntTok (c :: cs2) with
                | none => rw [hit] at h; exact Option.noConfusion h
                | some pr =>
                  obtain ⟨n, rest'⟩ := pr
                  rw [hit] at h
                  exact JsonVal.noConfusion (congrArg Prod.fst (Option.some.inj h))

/-- The central scanner-correctness fact: when a prefix of the input parses
exactly as one top-level JSON object with nothing left over, the
brace-counting scanner of `parse_json_content` triggers precisely at that
prefix's final closing brace, so `parse_json_content` parses exactly the
first object and ignores everything after it. -/
theorem parse_json_content_first_object (cs : List Char) (kvs : List (String × JsonVal))
    (h : parseValue (fuelFor cs) cs = some (JsonVal.obj kvs, []))
    (tail : List Char) :
    parse_json_content (cs ++ tail) = some (JsonVal.obj kvs) := by
  obtain ⟨ws, msp, hdecomp, hwsplain, hmscan⟩ := parseValue_obj_scan (fuelFor cs) cs kvs [] h
  have hfind : scanFind ⟨0, false, false⟩ (cs ++ tail) 0 =
      some (ws.length + msp.length + 1) := by
    conv_lhs => rw [hdecomp]
    simp only [List.append_assoc, List.cons_append, List.nil_append]
    rw [scanFind_append (scanRun_plain_list ws hwsplain 0 false)]
    rw [scanFind_cons_of_step (scanStep_lbrace 0)]
    rw [show (0 : Int) + 1 = 1 from by norm_num]
    rw [scanFind_append (hmscan 1 (by norm_num))]
    rw [scanFind_cons_trigger scanStep_rbrace_trigger]
    congr 1
    omega
  unfold parse_json_content
  rw [hfind]
  dsimp only
  have hlen : ws.length + msp.length + 1 + 1 = cs.length := by
    rw [hdecomp]
    simp [List.length_append, List.length_cons]
    omega
  rw [hlen, List.take_left]
  unfold json_loads
  rw [h]
  rfl

/-- C2: for every input made of a first top-level JSON object (parsed
exactly, nothing left over) followed by arbitrary additional bytes — a
second minified, pretty-printed, or whitespace-separated object included —
`parse_json_content` returns exactly the parse of the first object and
ignores the trailing bytes. -/
theorem c2_first_object_extracted (cs : List Char) (kvs : List (String × JsonVal))
    (h : parseValue (fuelFor cs) cs = some (JsonVal.obj kvs, []))
    (tail : List Char) :
    parse_json_content (cs ++ tail) = some (JsonVal.obj kvs) := by
  exact parse_json_content_first_object cs kvs h tail

/-- Closed instance of C2: minified `\x7b"a":1\x7d\x7b"b":2\x7d`,
pretty-printed, and whitespace-separated variants all return only the parse
of the first object. -/
theorem c2_first_object_extracted_witness :
    parse_json_content (jsonA ++ jsonB) = some (JsonVal.obj [("a", JsonVal.num 1)]) ∧
    parse_json_content (jsonAPretty ++ '\n' :: jsonBPretty) =
      some (JsonVal.obj [("a", JsonVal.num 1)]) ∧
    parse_json_content (jsonA ++ ' ' :: '\n' :: jsonB) =
      some (JsonVal.obj [("a", JsonVal.num 1)]) :=
  ⟨c2_first_object_extracted jsonA [("a", JsonVal.num 1)] rfl jsonB,
   c2_first_object_extracted jsonAPretty [("a", JsonVal.num 1)] rfl ('\n' :: jsonBPretty),
   c2_first_object_extracted jsonA [("a", JsonVal.num 1)] rfl (' ' :: '\n' :: jsonB)⟩

/-- C3: on a well-formed input that is exactly one top-level JSON object
with no trailing bytes, `parse_json_content` (the string-aware
brace-counting scanner path) returns the same parsed value as directly
JSON-parsing the entire input. -/
theorem c3_single_object_matches_direct_parse (cs : List Char)
    (kvs : List (String × JsonVal))
    (h : parseValue (fuelFor cs) cs = some (JsonVal.obj kvs, [])) :
    parse_json_content cs = json_loads cs := by
  have h1 := parse_json_content_first_object cs kvs h []
  rw [List.append_nil] at h1
  rw [h1]
  unfold json_loads
  rw [h]
  rfl

/-- Closed instance of C3: on `\x7b"a":1\x7d` the scanner path agrees with
direct parsing. -/
theorem c3_single_object_matches_direct_parse_witness :
    parse_json_content jsonA = json_loads jsonA :=
  c3_single_object_matches_direct_parse jsonA [("a", JsonVal.num 1)] rfl

/-- An `extract_comments` run only depends on the parsed data through the
flattened raw-comment list. -/
theorem extract_comments_congr_raw (d1 d2 : GerritData) (uo : Bool)
    (h : rawCommentsOf d1 = rawCommentsOf d2) :
    extract_comments d1 uo = extract_comments d2 uo := by
  unfold extract_comments; rw [h]

/-- When the flattened raw-comment list is empty, extraction succeeds with
the empty list. -/
theorem extract_comments_of_raw_nil (data : GerritData) (uo : Bool)
    (h : rawCommentsOf data = []) : extract_comments data uo = Except.ok [] := by
  unfold extract_comments
  rw [h]
  cases uo <;> rfl

/-- C10: `build_query_command` with its default keyword arguments
(`output_format="JSON"`, all include flags true) produces exactly the
argument list of `build_ssh_command`, for every configuration and query
string; hence the command printed by `--dry-run` equals the command a real
fetch would run. -/
theorem c10_dry_run_command_matches_fetch (config : GerritConfig) (query_str : String) :
    build_query_command config query_str "JSON" true true true =
      build_ssh_command config query_str := rfl

/-- C1 (code bug): on the repository's own test input
`test_comment_missing_reviewer_skipped` — a record with `file`, `line` and
`message` but no `reviewer` — `_extract_comment` does not silently drop the
record: the subscript `comment_data["reviewer"]` raises `KeyError`, and
`extract_comments` propagates it instead of continuing. -/
theorem c1_missing_reviewer_raises :
    extract_comment missingReviewerRecord = Except.error "KeyError: reviewer" ∧
    extract_comments missingReviewerPayload false = Except.error "KeyError: reviewer" :=
  ⟨rfl, rfl⟩

/-- C5: on the specification's sample payload, unfiltered extraction yields
exactly the three comments in order `(src/main.py,10), (src/main.py,20),
(src/utils.py,5)`; with `unresolved_only` it yields exactly the two
unresolved ones, and the filtered result is the unresolved-filter of the
validated unfiltered result. -/
theorem c5_sample_payload_extraction :
    extract_comments samplePayload false = Except.ok
      [⟨"src/main.py", 10, "Reviewer One", "Please fix this", true⟩,
       ⟨"src/main.py", 20, "Reviewer Two", "Looks good", false⟩,
       ⟨"src/utils.py", 5, "Reviewer One", "Add docstring", true⟩] ∧
    extract_comments samplePayload true = Except.ok
      [⟨"src/main.py", 10, "Reviewer One", "Please fix this", true⟩,
       ⟨"src/utils.py", 5, "Reviewer One", "Add docstring", true⟩] ∧
    extract_comments samplePayload true =
      (extract_comments samplePayload false).map (List.filter fun c => c.unresolved) :=
  ⟨rfl, rfl, rfl⟩

/-- C6: an absent or empty `patchSets` collection yields `ok []` (no
exception), and a patch set whose `comments` collection is absent
contributes nothing: extraction equals extraction with that patch set
removed. -/
theorem c6_missing_collections_give_empty :
    (∀ (data : GerritData) (uo : Bool), data.patchSets = none →
        extract_comments data uo = Except.ok []) ∧
    (∀ (data : GerritData) (uo : Bool), data.patchSets = some [] →
        extract_comments data uo = Except.ok []) ∧
    (∀ (data : GerritData) (uo : Bool) (l1 l2 : List PatchSet) (ps : PatchSet),
        ps.comments = none → data.patchSets = some (l1 ++ ps :: l2) →
        extract_comments data uo =
          extract_comments ⟨data.project, data.number, data.subject, some (l1 ++ l2)⟩ uo) := by
  refine ⟨?_, ?_, ?_⟩
  · intro data uo h
    exact extract_comments_of_raw_nil data uo (by simp [rawCommentsOf, h])
  · intro data uo h
    exact extract_comments_of_raw_nil data uo (by simp [rawCommentsOf, h])
  · intro data uo l1 l2 ps h1 h2
    refine extract_comments_congr_raw _ _ uo ?_
    simp [rawCommentsOf, h1, h2]

/-- Closed instance of C6: absent `patchSets`, empty `patchSets`, and a
patch set without a `comments` key all behave as empty. -/
theorem c6_missing_collections_witness :
    extract_comments ⟨some "p", none, none, none⟩ false = Except.ok [] ∧
    extract_comments ⟨some "p", none, none, some []⟩ true = Except.ok [] ∧
    extract_comments ⟨none, none, none, some [⟨some 1, none⟩]⟩ false =
      extract_comments ⟨none, none, none, some ([] ++ [])⟩ false :=
  ⟨c6_missing_collections_give_empty.1 _ false rfl,
   c6_missing_collections_give_empty.2.1 _ true rfl,
   c6_missing_collections_give_empty.2.2 _ false [] [] ⟨some 1, none⟩ rfl rfl⟩

/-- C8: when the local file does not exist, or the path begins with the
absolute-path marker `/`, no context lines are produced (and the rendering
is a total function: no exception). -/
theorem c8_missing_or_absolute_skipped (fs : FileSystem) (c : Comment)
    (h : fs c.file = none ∨ pyStartsWith c.file "/" = true) :
    comment_context fs c = [] := by
  unfold comment_context
  rcases h with h | h
  · by_cases hs : pyStartsWith c.file "/" = true
    · rw [if_pos hs]
    · rw [if_neg hs]
      unfold show_code_context
      rw [h]
  · rw [if_pos h]

/-- Closed instance of C8: a nonexistent relative path and an existing-tree
absolute path both produce no context lines. -/
theorem c8_missing_or_absolute_witness :
    comment_context (fun _ => none) ⟨"x.py", 1, "r", "m", true⟩ = [] ∧
    comment_context sampleFs ⟨"/etc/passwd", 1, "r", "m", true⟩ = [] :=
  ⟨c8_missing_or_absolute_skipped _ _ (Or.inl rfl),
   c8_missing_or_absolute_skipped _ _ (Or.inr rfl)⟩

/-- C7: for an existing file, the renderer with context radius 2 emits (after
a blank separator line) exactly the lines whose 0-based indices lie in the
window `[line_num - 2 - 1, line_num + 2)` clamped to `[0, lineCount)`, each
prefixed by its 1-based number right-justified to 4 characters, with the
`>>>` marker exactly on the commented line and a blank marker elsewhere. -/
theorem c7_context_window_rendering (fs : FileSystem) (fp : String) (lines : List String)
    (line_num : Int) (h : fs fp = some lines) :
    ∃ out, show_code_context fs fp line_num 2 = "" :: out ∧
      out.length = (min (lines.length : Int) (line_num + 2) - max 0 (line_num - 2 - 1)).toNat ∧
      ∀ (j : Nat), j < out.length →
        out.getD j "" =
          "     " ++ pyRjust4 ((max 0 (line_num - 2 - 1)).toNat + j + 1) ++ " " ++
            (if ((max 0 (line_num - 2 - 1)).toNat + j : Int) = line_num - 1 then ">>>" else "   ") ++
            " " ++ pyRstrip (lines.getD ((max 0 (line_num - 2 - 1)).toNat + j) "") := by
  have hs : show_code_context fs fp line_num 2 =
      "" :: (List.range' (max 0 (line_num - 2 - 1)).toNat
        ((min (lines.length : Int) (line_num + 2) - max 0 (line_num - 2 - 1)).toNat)).map
        (fun i => "     " ++ pyRjust4 (i + 1) ++ " " ++
          (if (i : Int) = line_num - 1 then ">>>" else "   ") ++ " " ++
          pyRstrip (lines.getD i "")) := by
    unfold show_code_context
    rw [h]
  refine ⟨_, hs, ?_, ?_⟩
  · simp [List.length_map, List.length_range']
  · intro j hj
    rw [List.length_map, List.length_range'] at hj
    rw [List.getD_eq_getElem?_getD, List.getElem?_map, List.getElem?_range' _ _ hj]
    simp only [Option.map_some', Option.getD_some, one_mul, Nat.cast_add]

/-- Closed instance of C7: the sample file rendered at line 3 with radius 2
shows lines 1-5, marker on line 3. -/
theorem c7_context_window_witness :
    ∃ out, show_code_context sampleFs "src/main.py" 3 2 = "" :: out ∧
      out.length = (min ((6 : Nat) : Int) (3 + 2) - max 0 (3 - 2 - 1)).toNat ∧
      ∀ (j : Nat), j < out.length →
        out.getD j "" =
          "     " ++ pyRjust4 ((max 0 ((3 : Int) - 2 - 1)).toNat + j + 1) ++ " " ++
            (if ((max 0 ((3 : Int) - 2 - 1)).toNat + j : Int) = 3 - 1 then ">>>" else "   ") ++
            " " ++
            pyRstrip ((["line one", "line two  ", "line three", "line four", "line five",
              "line six"] : List String).getD ((max 0 ((3 : Int) - 2 - 1)).toNat + j) "") :=
  c7_context_window_rendering sampleFs "src/main.py"
    ["line one", "line two  ", "line three", "line four", "line five", "line six"] 3 rfl

/-- C4: a successful `extract_comments` run is sorted by `(file, line)`
ascending — every adjacent pair satisfies `file < file` or equal files with
`line ≤ line` — and the sort is stable: the comments with any fixed
`(file, line)` key appear in the same order as in the pre-sort encounter
list (patch-set order, then within-patch-set order, after validation and
the optional unresolved filter). -/
theorem c4_output_sorted_and_stable (data : GerritData) (uo : Bool)
    (l pre : List Comment)
    (h1 : extract_comments data uo = Except.ok l)
    (h2 : encountered data uo = Except.ok pre) :
    List.Chain' (fun c1 c2 => strLt c1.file c2.file = true ∨
      (c1.file = c2.file ∧ c1.line ≤ c2.line)) l ∧
    ∀ (f : String) (n : Int),
      l.filter (fun c => decide (c.file = f) && decide (c.line = n)) =
        pre.filter (fun c => decide (c.file = f) && decide (c.line = n)) := by
  unfold extract_comments at h1
  unfold encountered at h2
  cases hm : (rawCommentsOf data).mapM extract_comment with
  | error e =>
    rw [hm] at h1
    cases h1
  | ok opts =>
    rw [hm] at h1 h2
    have hl : List.insertionSort keyLE
        (if uo then (opts.filterMap id).filter (fun c => c.unresolved)
         else opts.filterMap id) = l := by
      cases uo <;> exact Except.ok.inj h1
    have hpre : (if uo then (opts.filterMap id).filter (fun c => c.unresolved)
         else opts.filterMap id) = pre := by
      cases uo <;> exact Except.ok.inj h2
    set pre0 := (if uo then (opts.filterMap id).filter (fun c => c.unresolved)
         else opts.filterMap id) with hpre0
    constructor
    · have hsorted : List.Pairwise keyLE (List.insertionSort keyLE pre0) :=
        @List.sorted_insertionSort Comment keyLE _ ⟨keyLE_total⟩ ⟨keyLE_trans⟩ pre0
      rw [hl] at hsorted
      exact hsorted.chain'.imp (fun a b hab => hab)
    · intro f n
      set p := (fun c : Comment => decide (c.file = f) && decide (c.line = n)) with hp
      have hmem : ∀ c ∈ pre0.filter p, c.file = f ∧ c.line = n := by
        intro c hc
        have := (List.mem_filter.mp hc).2
        rw [hp] at this
        simp only [Bool.and_eq_true, decide_eq_true_eq] at this
        exact this
      have hpair : (pre0.filter p).Pairwise keyLE := by
        apply List.pairwise_of_forall_mem_list
        intro x hx y hy
        obtain ⟨hxf, hxn⟩ := hmem x hx
        obtain ⟨hyf, hyn⟩ := hmem y hy
        exact Or.inr ⟨hxf.trans hyf.symm, by rw [hxn, hyn]⟩
      have hst : List.Sublist (pre0.filter p) (List.insertionSort keyLE pre0) :=
        List.sublist_insertionSort hpair (List.filter_sublist pre0)
      have hperm : List.Perm (List.insertionSort keyLE pre0) pre0 :=
        List.perm_insertionSort keyLE pre0
      have hself : (pre0.filter p).filter p = pre0.filter p :=
        List.filter_eq_self.mpr (fun a ha => (List.mem_filter.mp ha).2)
      have hsub2 : List.Sublist (pre0.filter p) ((List.insertionSort keyLE pre0).filter p) := by
        rw [← hself]
        exact hst.filter p
      have hlen : ((List.insertionSort keyLE pre0).filter p).length =
          (pre0.filter p).length := (hperm.filter p).length_eq
      have := hsub2.eq_of_length (hlen.symm)
      rw [← hl, ← hpre]
      exact this.symm

/-- Closed instance of C4: sortedness of the sample extraction and
stability of the `(src/main.py, 10)` key class. -/
theorem c4_output_sorted_and_stable_witness :
    List.Chain' (fun c1 c2 => strLt c1.file c2.file = true ∨
      (c1.file = c2.file ∧ c1.line ≤ c2.line))
      ([⟨"src/main.py", 10, "Reviewer One", "Please fix this", true⟩,
        ⟨"src/main.py", 20, "Reviewer Two", "Looks good", false⟩,
        ⟨"src/utils.py", 5, "Reviewer One", "Add docstring", true⟩] : List Comment) ∧
    ([⟨"src/main.py", 10, "Reviewer One", "Please fix this", true⟩,
      ⟨"src/main.py", 20, "Reviewer Two", "Looks good", false⟩,
      ⟨"src/utils.py", 5, "Reviewer One", "Add docstring", true⟩] : List Comment).filter
        (fun c => decide (c.file = "src/main.py") && decide (c.line = 10)) =
      ([⟨"src/main.py", 10, "Reviewer One", "Please fix this", true⟩,
        ⟨"src/main.py", 20, "Reviewer Two", "Looks good", false⟩,
        ⟨"src/utils.py", 5, "Reviewer One", "Add docstring", true⟩] : List Comment).filter
        (fun c => decide (c.file = "src/main.py") && decide (c.line = 10)) :=
  ⟨(c4_output_sorted_and_stable samplePayload false _ _ rfl rfl).1,
   (c4_output_sorted_and_stable samplePayload false _ _ rfl rfl).2 "src/main.py" 10⟩

/-- One comment's structured object parses back to the comment. -/
theorem comment_fromJson_toJson (c : Comment) :
    Comment.fromJson (Comment.toJson c) = some c := rfl

/-- A mapped comment list parses back elementwise. -/
theorem commentsFromJson_map_toJson : ∀ (l : List Comment),
    commentsFromJson (l.map Comment.toJson) = some l := by
  intro l
  induction l with
  | nil => rfl
  | cons c cs ih =>
    rw [List.map_cons, commentsFromJson, comment_fromJson_toJson, ih]

/-- C9: the structured-mode output is the single object with keys
`project`, `change_number`, `subject`, `comments` (each comment expanded to
its five fields) — identical to `output_as_dict` — and parsing it back
recovers exactly the internal summary (lossless round-trip). -/
theorem c9_structured_output_round_trip (data : GerritData) (comments : List Comment) :
    ReviewOutput.toJson (ReviewOutput.from_gerrit_data data comments) =
      output_as_dict data comments ∧
    ReviewOutput.fromJson (ReviewOutput.toJson (ReviewOutput.from_gerrit_data data comments)) =
      some (ReviewOutput.from_gerrit_data data comments) := by
  constructor
  · unfold ReviewOutput.toJson output_as_dict ReviewOutput.from_gerrit_data changeNumberOf
    cases data.number <;> rfl
  · unfold ReviewOutput.fromJson ReviewOutput.toJson
    cases hn : data.number with
    | some n =>
      simp [ReviewOutput.from_gerrit_data, changeNumberOf, hn, jsonLookup,
            commentsFromJson_map_toJson]
    | none =>
      simp [ReviewOutput.from_gerrit_data, changeNumberOf, hn, jsonLookup,
            commentsFromJson_map_toJson]

end GerritReviewParser
